import Mathlib

/-!
Shallow embedding of the llm_dump repository (src/llm_dump/markdown.py and
src/llm_dump/repo.py) together with proofs about the natural-language
specification's claims.

Filesystem paths are modelled as lists of path components (`FsPath`); a
filesystem is a finite list of (path, content) pairs plus a current working
directory.  Python `pathlib` operations are translated component-wise:
`p / s` splits `s` on the separator and drops empty and single-dot pieces
(as `pathlib` does), `p.parent` drops the last component, `p.name` is the
last component.  `os.stat`-backed existence checks resolve `..` components
(as the operating system does), while path values themselves keep `..`
literally (as `pathlib` does).
-/

namespace LlmDump

/-- Decidable equality for `Except`, used to evaluate the model on concrete
inputs. -/
instance {ε α : Type} [DecidableEq ε] [DecidableEq α] : DecidableEq (Except ε α) := fun x y =>
  match x, y with
  | Except.error a, Except.error b =>
    if h : a = b then isTrue (by rw [h]) else isFalse (by simp [h])
  | Except.error _, Except.ok _ => isFalse (by simp)
  | Except.ok _, Except.error _ => isFalse (by simp)
  | Except.ok a, Except.ok b =>
    if h : a = b then isTrue (by rw [h]) else isFalse (by simp [h])

abbrev FsPath := List String

/-- Splits a list of characters on a separator character. -/
def splitOnSep (sep : Char) : List Char → List (List Char)
  | [] => [[]]
  | c :: rest =>
    if c = sep then [] :: splitOnSep sep rest
    else
      match splitOnSep sep rest with
      | h :: t => (c :: h) :: t
      | [] => [[c]]

/-- Components of a path string, as `pathlib` parses it: split on the
separator, dropping empty pieces and single dots. -/
def pathOfString (s : String) : FsPath :=
  ((splitOnSep '/' s.data).map (fun l => String.mk l)).filter (fun c => c ≠ "" ∧ c ≠ ".")

/-- Renders a component list back to a path string; the empty list prints as
`.`, mirroring `str(Path('.'))`. -/
def joinPath (p : FsPath) : String :=
  if p = [] then "." else String.intercalate "/" p

/-- Python `Path.parent`. -/
def parent (p : FsPath) : FsPath := p.dropLast

/-- Python `Path.name` (empty for the root / empty path). -/
def pname (p : FsPath) : String := p.getLast?.getD ""

/-- Python `Path.__truediv__` with a string argument. -/
def pjoin (p : FsPath) (s : String) : FsPath := p ++ pathOfString s

/-- Resolution of `..` components as the operating system performs it when a
path is handed to `stat`: each `..` cancels the preceding component. -/
def normPath (p : FsPath) : FsPath :=
  p.foldl (fun acc c => if c = ".." then acc.dropLast else acc ++ [c]) []

/-- Model of the filesystem: the regular files present (path plus text
content) and the current working directory. -/
structure FS where
  files : List (FsPath × String)
  cwd : FsPath
deriving Repr, DecidableEq

/-- Python `Path.is_file` (after the OS resolves `..` components). -/
def FS.isFile (fs : FS) (p : FsPath) : Bool :=
  fs.files.any (fun e => e.1 = normPath p)

/-- Whether `p` denotes a directory: some regular file lies strictly below
it.  (The model contains no empty directories.) -/
def FS.isDir (fs : FS) (p : FsPath) : Bool :=
  fs.files.any (fun e => (normPath p).isPrefixOf e.1 ∧ (normPath p).length < e.1.length)

/-- Python `Path.exists`: a file or a directory. -/
def FS.pexists (fs : FS) (p : FsPath) : Bool :=
  fs.isFile p || fs.isDir p

/-- Reading a file's text; `none` when no such regular file exists. -/
def FS.readFile (fs : FS) (p : FsPath) : Option String :=
  (fs.files.find? (fun e => e.1 = normPath p)).map (fun e => e.2)

/-! ## Link extractor (src/llm_dump/markdown.py, extract_markdown_links) -/

/-- Scanner state for the wiki-link pattern: either outside a match, or
inside the lazy capture group with the characters read so far (reversed). -/
inductive WikiMode where
  | outside : WikiMode
  | inside : List Char → WikiMode

/-- Single left-to-right pass implementing the non-greedy wiki-link regex
scan of the source.  Outside a match, two consecutive opening brackets start
a capture; inside, the earliest pair of closing brackets ends it (lazy
matching) and scanning resumes after the match, while a newline aborts the
attempt (the regex dot does not match newlines).  Aborting resumes scanning
at the newline: every attempt starting between the failed opener and the
newline would stop at the same newline without finding a close, so skipping
them agrees with the engine's resume-at-next-position behaviour. -/
def wikiStep : WikiMode → List Char → List (List Char)
  | _, [] => []
  | WikiMode.outside, '[' :: '[' :: rest => wikiStep (WikiMode.inside []) rest
  | WikiMode.outside, _ :: rest => wikiStep WikiMode.outside rest
  | WikiMode.inside acc, ']' :: ']' :: rest => acc.reverse :: wikiStep WikiMode.outside rest
  | WikiMode.inside _, '\n' :: rest => wikiStep WikiMode.outside rest
  | WikiMode.inside acc, c :: rest => wikiStep (WikiMode.inside (c :: acc)) rest

/-- All captures of the wiki-link pattern, in match order. -/
def findWiki (l : List Char) : List (List Char) :=
  wikiStep WikiMode.outside l

/-- Scanner state for the standard-link pattern: outside a match, inside the
display-text part (whose characters are discarded), or inside the target
capture with the characters read so far (reversed). -/
inductive MdMode where
  | outside : MdMode
  | text : MdMode
  | target : List Char → MdMode

/-- Single left-to-right pass implementing the standard-link regex scan of
the source.  An opening bracket starts the display-text part (any characters
other than a closing bracket); the closing bracket must be followed directly
by an opening parenthesis, which starts the target capture (one or more
characters other than a closing parenthesis).  On a failed attempt scanning
resumes at the character that caused the failure: every attempt starting
strictly inside the failed region fails at the same position, so skipping
them agrees with the engine's resume-at-next-position behaviour. -/
def mdStep : MdMode → List Char → List (List Char)
  | _, [] => []
  | MdMode.outside, '[' :: rest => mdStep MdMode.text rest
  | MdMode.outside, _ :: rest => mdStep MdMode.outside rest
  | MdMode.text, ']' :: '(' :: rest => mdStep (MdMode.target []) rest
  | MdMode.text, ']' :: rest => mdStep MdMode.outside rest
  | MdMode.text, _ :: rest => mdStep MdMode.text rest
  | MdMode.target [], ')' :: rest => mdStep MdMode.outside rest
  | MdMode.target acc, ')' :: rest => acc.reverse :: mdStep MdMode.outside rest
  | MdMode.target acc, c :: rest => mdStep (MdMode.target (c :: acc)) rest

/-- All captures of the standard-link pattern, in match order. -/
def findMd (l : List Char) : List (List Char) :=
  mdStep MdMode.outside l

/-- Whether a captured target begins with one of the excluded URL schemes. -/
def isExternalLink (l : List Char) : Bool :=
  "http://".data.isPrefixOf l || "https://".data.isPrefixOf l ||
    "ftp://".data.isPrefixOf l

/-- Wiki-link targets in capture order, alias part (text from the first pipe
onwards) removed. -/
def wiki_list (content : String) : List String :=
  (findWiki content.data).map (fun m => String.mk (m.takeWhile (fun ch => ch ≠ '|')))

/-- Standard-link targets in capture order, external URLs excluded. -/
def md_list (content : String) : List String :=
  ((findMd content.data).filter (fun l => ¬ isExternalLink l)).map (fun l => String.mk l)

/-- Extracted links in first-occurrence order: union of both capture lists
with the anchor part (text from the first hash onwards) removed, then
deduplicated.  This fixes one concrete iteration order for the Python set. -/
def extract_list (content : String) : List String :=
  (((wiki_list content ++ md_list content).map
    (fun link => String.mk (link.data.takeWhile (fun ch => ch ≠ '#')))).dedup)

/-- The extracted link set itself (Python returns a `set`). -/
def extract_markdown_links (content : String) : Finset String :=
  (extract_list content).toFinset

/-! ## Extension normalization and link resolution -/

/-- Appends the markdown extension when absent (ensure_md_extension). -/
def ensure_md_extension (file_path : String) : String :=
  if ".md".data.isSuffixOf file_path.data then file_path else file_path ++ ".md"

/-- Resolves one raw link against the containing file and the base folder
(resolve_markdown_link): a link starting with the parent marker resolves
against the grandparent directory with the marker stripped; otherwise the
candidate relative to the containing directory is tried first, falling back
to the base folder when that candidate does not exist; finally the markdown
extension is forced onto the candidate's file name and the candidate is
returned when it exists on disk. -/
def resolve_markdown_link (fs : FS) (link : String) (current_file : FsPath)
    (base_folder : FsPath) : Option FsPath :=
  let potential_path :=
    if "../".data.isPrefixOf link.data then
      pjoin (parent (parent current_file)) (String.mk (link.data.drop 3))
    else
      let fromCurrent := pjoin (parent current_file) link
      if fs.pexists fromCurrent then fromCurrent else pjoin base_folder link
  let candidate := parent potential_path ++ [ensure_md_extension (pname potential_path)]
  if fs.pexists candidate then some candidate else none

/-! ## Traversal data model (src/llm_dump/utility_types.py) -/

/-- One captured document: its path and its full text (FileContent). -/
structure FileContent where
  file_path : FsPath
  content : String
deriving Repr, DecidableEq

/-- Parameters of one link-graph traversal (ObsidianTraversalInput). -/
structure ObsidianTraversalInput where
  start_file : String
  output_file : String
  max_depth : Nat := 2
  base_folder : Option FsPath := none
deriving Repr, DecidableEq

/-- Effective base folder of a traversal: the request's base folder, or the
current working directory when absent (`input_data.base_folder or
Path.cwd()`). -/
def effBase (fs : FS) (input : ObsidianTraversalInput) : FsPath :=
  input.base_folder.getD fs.cwd

/-- Location of an invocation's start document: the effective base folder
joined with the extension-normalized start reference. -/
def startLoc (fs : FS) (input : ObsidianTraversalInput) : FsPath :=
  pjoin (effBase fs input) (ensure_md_extension input.start_file)

/-- Request built for a child invocation inside the traversal loop: same
output target and depth bound, the resolved base folder, and the nested
start reference. -/
def derive_nested_input (input : ObsidianTraversalInput) (base_folder : FsPath)
    (nested_start : String) : ObsidianTraversalInput :=
  { start_file := nested_start
    output_file := input.output_file
    max_depth := input.max_depth
    base_folder := some base_folder }

/-- Python `Path.relative_to`: drops the base prefix, failing (raising
ValueError in the source) when the base is not a lexical prefix. -/
def relative_to (p base : FsPath) : Option FsPath :=
  if base.isPrefixOf p then some (p.drop base.length) else none

/-! ## Link-graph traversal (src/llm_dump/markdown.py, traverse_markdown_files)

The Python function recurses once per discovered link, adding one level of
depth each time and never descending when the current depth has reached the
bound; the embedding makes this explicit with a fuel argument that the
wrapper instantiates with `max_depth + 1 - current_depth`, which is exactly
the number of levels the source can still descend (the zero-fuel branch is
unreachable from the wrapper).  The mutable visited set shared by reference
in the source is threaded through explicitly; Python's unspecified set
iteration order is fixed to first-occurrence order of the extracted links. -/

/-- Loop body over the extracted links of the current document: unresolved
links are skipped silently, already-visited resolved locations are skipped,
and otherwise a child invocation (performed by `recurse`) contributes its
captured documents.  `Path.relative_to` raises when the resolved location is
not below the base folder, aborting the traversal. -/
def traverseLinksF (fs : FS) (input : ObsidianTraversalInput)
    (current_file base_folder : FsPath)
    (recurse : ObsidianTraversalInput → List FsPath →
      Except String (List FileContent × List FsPath)) :
    List String → List FileContent → List FsPath →
      Except String (List FileContent × List FsPath)
  | [], results, visited => Except.ok (results, visited)
  | link :: rest, results, visited =>
    match resolve_markdown_link fs link current_file base_folder with
    | none => traverseLinksF fs input current_file base_folder recurse rest results visited
    | some resolved =>
      if resolved ∈ visited then
        traverseLinksF fs input current_file base_folder recurse rest results visited
      else
        match relative_to resolved base_folder with
        | none => Except.error ("relative_to: " ++ joinPath resolved)
        | some rel =>
          let nested_input := derive_nested_input input base_folder (joinPath rel)
          match recurse nested_input visited with
          | Except.error e => Except.error e
          | Except.ok (nested_results, visited') =>
            traverseLinksF fs input current_file base_folder recurse rest
              (results ++ nested_results) visited'

/-- Fueled traversal: check the start document exists (fatal otherwise),
skip it when already visited, capture it, stop when the depth bound is
reached, and otherwise process its extracted links. -/
def traverseF (fs : FS) : Nat → ObsidianTraversalInput → List FsPath → Nat →
    Except String (List FileContent × List FsPath)
  | 0, _, visited, _ => Except.ok ([], visited)
  | fuel + 1, input, visited, current_depth =>
    let base_folder := effBase fs input
    let current_file := startLoc fs input
    if fs.isFile current_file = false then
      Except.error ("File not found: " ++ joinPath current_file)
    else if current_file ∈ visited then
      Except.ok ([], visited)
    else
      let visited' := current_file :: visited
      match fs.readFile current_file with
      | none => Except.ok ([], visited')
      | some content =>
        let results := [FileContent.mk current_file content]
        if input.max_depth ≤ current_depth then
          Except.ok (results, visited')
        else
          traverseLinksF fs input current_file base_folder
            (fun inp vis => traverseF fs fuel inp vis (current_depth + 1))
            (extract_list content) results visited'

/-- The traversal itself, with exactly adequate fuel. -/
def traverse_markdown_files (fs : FS) (input : ObsidianTraversalInput)
    (visited : List FsPath) (current_depth : Nat) :
    Except String (List FileContent × List FsPath) :=
  traverseF fs (input.max_depth + 1 - current_depth) input visited current_depth

/-! ## Dump writers -/

/-- One delimited content block of the output artifact. -/
def fileBlock (rel : String) (content : String) : String :=
  "--- Start of " ++ rel ++ " ---\n" ++ content ++ "\n" ++
    "--- End of " ++ rel ++ " ---\n\n"

/-- Start/end delimited blocks for a sequence of captured documents, each
path taken relative to the base folder (both writers share this shape). -/
def write_blocks (base : FsPath) : List FileContent → Except String String
  | [] => Except.ok ""
  | fc :: rest =>
    match relative_to fc.file_path base with
    | none => Except.error ("relative_to: " ++ joinPath fc.file_path)
    | some rel => (write_blocks base rest).map
        (fun s => fileBlock (joinPath rel) fc.content ++ s)

/-- Request actually used by dump_markdown_files: when no base folder was
supplied the source assigns the start file's parent directory to the
request's own field before traversing. -/
def dump_effective (input : ObsidianTraversalInput) : ObsidianTraversalInput :=
  if input.base_folder.isNone then
    { input with base_folder := some (parent (pathOfString input.start_file)) }
  else input

/-- Markdown dump (dump_markdown_files): defaults the base folder on the
request itself, traverses, and on success writes the delimited blocks.  The
result carries the request as it stands after the call together with the
written artifact; an error means nothing was written. -/
def dump_markdown_files (fs : FS) (input : ObsidianTraversalInput) :
    Except String (ObsidianTraversalInput × String) :=
  let input := dump_effective input
  match traverse_markdown_files fs input [] 0 with
  | Except.error e => Except.error e
  | Except.ok (files, _) =>
    (write_blocks (effBase fs input) files).map (fun out => (input, out))

/-! ## Directory dump (src/llm_dump/repo.py)

The ignore-pattern matcher itself is the external pathspec library, which the
specification places out of scope ("assume a black-box matcher").  The walk
and dump functions therefore take the matcher as a parameter; for the
specification's concrete examples a small model of the gitwildmatch fragment
they use (component globs such as a star-dot-extension pattern, and
root-level directory patterns with a trailing separator) is provided. -/

/-- Glob match for one path component (star matches any run of characters),
with fuel; the wrapper supplies fuel that the match can never exhaust. -/
def globMatchF : Nat → List Char → List Char → Bool
  | 0, _, _ => false
  | fuel + 1, pat, txt =>
    match pat, txt with
    | [], [] => true
    | '*' :: ps, [] => globMatchF fuel ps []
    | '*' :: ps, c :: ts => globMatchF fuel ps (c :: ts) || globMatchF fuel ('*' :: ps) ts
    | p :: ps, c :: ts => p == c && globMatchF fuel ps ts
    | _ :: _, [] => false
    | [], _ :: _ => false

/-- Glob match for one path component. -/
def globMatch (pat txt : List Char) : Bool :=
  globMatchF (pat.length + txt.length + 1) pat txt

/-- Component-wise glob match of a slashed pattern against a path, where a
double-star component matches any number of components; fueled. -/
def compsMatchF : Nat → List String → List String → Bool
  | 0, _, _ => false
  | fuel + 1, pats, comps =>
    match pats, comps with
    | [], [] => true
    | "**" :: ps, cs =>
      compsMatchF fuel ps cs ||
        (match cs with
         | [] => false
         | _ :: cs' => compsMatchF fuel ("**" :: ps) cs')
    | p :: ps, c :: cs => globMatch p.data c.data && compsMatchF fuel ps cs
    | _, _ => false

/-- Modelled from the spec: the ignore-pattern matcher (the external
pathspec library, declared out of scope by the specification) for one rule,
covering the fragment the specification's examples use: an empty rule
matches nothing; a rule with a trailing separator matches every path below
that root-level directory; a rule containing a separator matches
component-wise from the root; a bare rule glob-matches any single component
of the path. -/
def gitwild_match_one (pat path : String) : Bool :=
  if pat.data = [] then false
  else if pat.data.getLast? = some '/' then pat.data.isPrefixOf path.data
  else if pat.data.contains '/' then
    compsMatchF (pat.length + path.length + 1) (pathOfString pat) (pathOfString path)
  else (pathOfString path).any (fun c => globMatch pat.data c.data)

/-- Modelled from the spec: a rule set matches a path when any of its rules
does. -/
def gitwild_match (patterns : List String) (path : String) : Bool :=
  patterns.any (fun p => gitwild_match_one p path)

/-- Rule lines assembled by load_gitignore: the ignore file's lines when it
exists, always followed by the two built-in version-control exclusions. -/
def load_gitignore (fs : FS) (folder : FsPath) : List String :=
  let default_patterns := [".git/", ".git/**/*"]
  match fs.readFile (folder ++ [".gitignore"]) with
  | some content => (splitOnSep '\n' content.data).map (fun l => String.mk l) ++ default_patterns
  | none => default_patterns

/-- Recursive walk collecting the readable files under a folder that the
matcher does not exclude (traverse_folder); the files are visited in the
filesystem model's stored order. -/
def traverse_folder (fs : FS) (folder_path : FsPath) (matcher : String → Bool) :
    List FileContent :=
  fs.files.filterMap (fun e =>
    if folder_path.isPrefixOf e.1 ∧ folder_path.length < e.1.length then
      if matcher (joinPath (e.1.drop folder_path.length)) then none
      else some ⟨e.1, e.2⟩
    else none)

/-- Immediate children of a directory in the model: the distinct next
components of the files lying below it, each flagged as directory or file. -/
def childNames (fs : FS) (folder : FsPath) : List String :=
  (fs.files.filterMap (fun e =>
    if folder.isPrefixOf e.1 ∧ folder.length < e.1.length then
      (e.1.drop folder.length).head?
    else none)).dedup

/-- Lexicographic comparison of character lists by code point, as Python
compares strings. -/
def strLt : List Char → List Char → Bool
  | [], [] => false
  | [], _ :: _ => true
  | _ :: _, [] => false
  | a :: as, b :: bs =>
    if a.toNat < b.toNat then true
    else if b.toNat < a.toNat then false
    else strLt as bs

/-- Ordering key used by the tree renderer's sort: files after directories,
then by name. -/
def entryKeyLe (fs : FS) (folder : FsPath) (a b : String) : Bool :=
  let fa := fs.isFile (folder ++ [a])
  let fb := fs.isFile (folder ++ [b])
  if fa = fb then !(strLt b.data a.data) else fb && !fa

/-- Insertion into a list sorted by the given comparison. -/
def insertSorted (le : α → α → Bool) (x : α) : List α → List α
  | [] => [x]
  | y :: ys => if le x y then x :: y :: ys else y :: insertSorted le x ys

/-- Insertion sort by the given comparison. -/
def sortByKey (le : α → α → Bool) (l : List α) : List α :=
  l.foldr (insertSorted le) []

/-- Loop over one directory level's indexed entries: skip ignored entries
(the last-entry connector refers to the position among all entries, before
skipping, as in the source), render the connector line, and splice in the
subtree that `recurse` produces for a directory entry. -/
def treeEntriesF (fs : FS) (matcher : String → Bool) (base_folder folder : FsPath)
    (total : Nat) (pre : String) (recurse : FsPath → String → List String) :
    List (Nat × String) → List String
  | [] => []
  | (idx, name) :: rest =>
    let entry := folder ++ [name]
    let isDir := fs.isDir entry
    let relEntry := joinPath (entry.drop base_folder.length) ++ (if isDir then "/" else "")
    let tail := treeEntriesF fs matcher base_folder folder total pre recurse rest
    if matcher relEntry then tail
    else
      let isLast := idx = total - 1
      let connector := if isLast then "└── " else "├── "
      let line := pre ++ connector ++ name
      let sub :=
        if isDir then recurse entry (pre ++ (if isLast then "    " else "│   "))
        else []
      line :: (sub ++ tail)

/-- Lines of the rendered file tree (generate_file_tree): entries sorted
with files after directories then alphabetically, directories recursed into
with an extended prefix; fueled, with the wrapper supplying fuel deeper
than any file. -/
def generate_file_treeF (fs : FS) (matcher : String → Bool) (base_folder : FsPath) :
    Nat → FsPath → String → List String
  | 0, _, _ => []
  | fuel + 1, folder, pre =>
    let entries := sortByKey (entryKeyLe fs folder) (childNames fs folder)
    treeEntriesF fs matcher base_folder folder entries.length pre
      (fun f p => generate_file_treeF fs matcher base_folder fuel f p) entries.enum

/-- The rendered file tree, joined with newlines. -/
def generate_file_tree (fs : FS) (matcher : String → Bool) (folder : FsPath) : String :=
  String.intercalate "\n"
    (generate_file_treeF fs matcher folder
      ((fs.files.map (fun e => e.1.length)).foldr max 0 + 1) folder "")

/-- Parameters of one directory dump (FolderTraversalInput). -/
structure FolderTraversalInput where
  folder_path : FsPath
  output_file : String
deriving Repr, DecidableEq

/-- Directory dump (dump_files_to_text): build the rule set, render the
tree, collect the surviving files, and write the tree header followed by
the delimited content blocks. -/
def dump_files_to_text (fs : FS) (input : FolderTraversalInput) : Except String String :=
  let matcher := gitwild_match (load_gitignore fs input.folder_path)
  let tree := generate_file_tree fs matcher input.folder_path
  let files := traverse_folder fs input.folder_path matcher
  (write_blocks input.folder_path files).map
    (fun blocks => "File Tree Structure:\n" ++ tree ++ "\n\n" ++ blocks)

/-- Substring test used to state what an artifact does and does not
contain. -/
def containsSub (needle hay : String) : Bool :=
  hay.data.tails.any (fun t => needle.data.isPrefixOf t)

/-! ## Reachability along resolved links -/

/-- One traversal step: the containing document can be read, one of its
extracted links resolves, the resolved location lies below the base folder,
and `q` is the location the traversal derives for the child invocation (the
resolved location re-rooted at the base folder, which coincides with the
resolved location itself whenever its components are ordinary names). -/
def stepT (fs : FS) (base : FsPath) (p q : FsPath) : Prop :=
  ∃ content, fs.readFile p = some content ∧
    ∃ link ∈ extract_list content, ∃ r, resolve_markdown_link fs link p base = some r ∧
      base.isPrefixOf r ∧
      q = pjoin base (ensure_md_extension (joinPath (r.drop base.length)))

/-- Reachability from `p` in exactly `n` traversal steps. -/
inductive ReachN (fs : FS) (base : FsPath) : Nat → FsPath → FsPath → Prop
  | refl (p : FsPath) : ReachN fs base 0 p p
  | head {p q r : FsPath} {n : Nat} :
      stepT fs base p q → ReachN fs base n q r → ReachN fs base (n + 1) p r

/-! ## Example filesystems used by the claims' concrete parts -/

/-- Cycle vault of the specification: a links b, b links c, c links a. -/
def fsCycle : FS :=
  ⟨[(["v", "a.md"], "[[b]]"), (["v", "b.md"], "[[c]]"), (["v", "c.md"], "[[a]]")], []⟩

/-- Vault for the relative-link example: sub/third.md and main.md at the
root. -/
def fsRel : FS :=
  ⟨[(["r", "sub", "third.md"], "x"), (["r", "main.md"], "y")], []⟩

/-- Filesystem with a directory whose name carries the markdown extension
(a regular file lies beneath it), next to a note linking to that name. -/
def fsDirMd : FS :=
  ⟨[(["v", "a.md"], "[[b]]"), (["v", "b.md", "c.txt"], "x")], []⟩

/-- Vault where an anchor-only link's empty target resolves: the containing
directory is `v/sub` and a file `v/sub.md` exists in the grandparent. -/
def fsAnchor : FS :=
  ⟨[(["v", "sub", "a.md"], "[[#sec]]"), (["v", "sub.md"], "x")], []⟩

/-- Same vault without `v/sub.md`: the empty target's candidate is absent. -/
def fsAnchorNone : FS :=
  ⟨[(["v", "sub", "a.md"], "[[#sec]]")], []⟩

/-- Vault for the dump-defaulting example: the start reference `v/a` names
`v/v/a.md` once the defaulted base folder `v` is prepended. -/
def fsDflt : FS := ⟨[(["v", "v", "a.md"], "x")], []⟩

/-- Repository with an ignore file excluding compiled artifacts. -/
def fsPyc : FS :=
  ⟨[(["r", ".gitignore"], "*.pyc\n"), (["r", "main.py"], "print(1)"), (["r", "x.pyc"], "xx")], []⟩

/-- Repository with version-control metadata and no ignore file. -/
def fsGit : FS :=
  ⟨[(["r", "main.py"], "print(1)"), (["r", ".git", "config"], "z")], []⟩

/-- Vault with one broken link next to one good link. -/
def fsBroken : FS :=
  ⟨[(["v", "a.md"], "[[missing]] [[b]]"), (["v", "b.md"], "y")], []⟩

end LlmDump

namespace LlmDump

/-! ## Helper lemmas -/

theorem data_mk (l : List Char) : (String.mk l).data = l := rfl

theorem mem_wiki_list_no_pipe {T : String} {w : String} (hw : w ∈ wiki_list T) :
    '|' ∉ w.data := by
  simp only [wiki_list, List.mem_map] at hw
  obtain ⟨m, _, rfl⟩ := hw
  intro hmem
  rw [data_mk] at hmem
  simpa using List.mem_takeWhile_imp hmem

theorem mem_extract_list_no_hash {T : String} {t : String} (ht : t ∈ extract_list T) :
    '#' ∉ t.data := by
  simp only [extract_list, List.mem_dedup, List.mem_map] at ht
  obtain ⟨l, _, rfl⟩ := ht
  intro hmem
  rw [data_mk] at hmem
  simpa using List.mem_takeWhile_imp hmem

/-! ## C10: extension normalization -/

/-- C10: for every reference string s that does not end in the markdown
extension, normalization appends it, and normalizing an already-normalized
string is the identity (idempotence). -/
theorem claim_C10 (s : String) (h : ".md".data.isSuffixOf s.data = false) :
    ensure_md_extension s = s ++ ".md" ∧
      ensure_md_extension (s ++ ".md") = s ++ ".md" := by
  constructor
  · simp [ensure_md_extension, h]
  · have hsuf : ".md".data.isSuffixOf (s ++ ".md").data = true := by
      rw [String.data_append, List.isSuffixOf_iff_suffix]
      exact List.suffix_append s.data ".md".data
    simp [ensure_md_extension, hsuf]

/-- Witness for C10 at a concrete reference. -/
theorem claim_C10_witness :
    ensure_md_extension "folder/file" = "folder/file" ++ ".md" ∧
      ensure_md_extension ("folder/file" ++ ".md") = "folder/file" ++ ".md" :=
  claim_C10 "folder/file" (by decide)

/-! ## C4: extractor output shape -/

/-- C4: for every input text, the extractor's output has no duplicate
targets, no returned target retains an anchor fragment (the text from the
first hash onwards is removed from the targets of both link syntaxes), and
no wiki-syntax target retains an alias portion (the text from the first
pipe onwards is removed at capture; the standard syntax has no alias
portion). -/
theorem claim_C4 (T : String) :
    (extract_list T).Nodup ∧
      (∀ t ∈ extract_list T, '#' ∉ t.data) ∧
      (∀ w ∈ wiki_list T, '|' ∉ w.data) :=
  ⟨List.nodup_dedup _, fun _ ht => mem_extract_list_no_hash ht,
    fun _ hw => mem_wiki_list_no_pipe hw⟩

/-- Witness for C4 on the specification's own extraction example. -/
theorem claim_C4_witness :
    (extract_list "[[a]] [[b|B]] [standard](c.md) [ext](https://x.com)").Nodup ∧
      '#' ∉ ("c.md" : String).data ∧ '|' ∉ ("b" : String).data :=
  ⟨(claim_C4 "[[a]] [[b|B]] [standard](c.md) [ext](https://x.com)").1,
    (claim_C4 "[[a]] [[b|B]] [standard](c.md) [ext](https://x.com)").2.1 "c.md" (by decide),
    (claim_C4 "[[a]] [[b|B]] [standard](c.md) [ext](https://x.com)").2.2 "b" (by decide)⟩

/-! ## C5: link resolution -/

/-- C5 counterexample: the final existence check of the resolver is a plain
existence check, not a regular-file check.  With a directory named `b.md`
(it contains `c.txt`), the reference `b` resolves to that directory even
though it is not a file on disk, refuting "the result is the candidate if
it exists on disk as a file". -/
theorem claim_C5_counterexample :
    resolve_markdown_link fsDirMd "b" ["v", "a.md"] ["v"] = some ["v", "b.md"] ∧
      fsDirMd.isFile ["v", "b.md"] = false := by decide

/-- C5 (amended): a reference starting with the parent marker resolves
against the grandparent directory of the containing document with the
marker stripped and no base-folder fallback (the base folder is
irrelevant); any other reference is tried relative to the containing
document's directory, falling back to the base folder when that candidate
does not exist; the markdown extension is forced onto the candidate's file
name; the result is the candidate if it exists on disk (as a file or a
directory — not necessarily as a file), otherwise not-found.  In
particular `../main` from `sub/third.md` with base folder the vault root
resolves to `main.md` at the root. -/
theorem claim_C5 :
    (∀ (fs : FS) (link : String) (cur base base2 : FsPath),
        "../".data.isPrefixOf link.data = true →
        resolve_markdown_link fs link cur base = resolve_markdown_link fs link cur base2) ∧
    (∀ (fs : FS) (link : String) (cur base : FsPath),
        "../".data.isPrefixOf link.data = true →
        resolve_markdown_link fs link cur base =
          (let c := pjoin (parent (parent cur)) (String.mk (link.data.drop 3))
           let cand := parent c ++ [ensure_md_extension (pname c)]
           if fs.pexists cand then some cand else none)) ∧
    (∀ (fs : FS) (link : String) (cur base : FsPath),
        "../".data.isPrefixOf link.data = false →
        resolve_markdown_link fs link cur base =
          (let c := if fs.pexists (pjoin (parent cur) link) then pjoin (parent cur) link
                    else pjoin base link
           let cand := parent c ++ [ensure_md_extension (pname c)]
           if fs.pexists cand then some cand else none)) ∧
    (∀ (fs : FS) (link : String) (cur base p : FsPath),
        resolve_markdown_link fs link cur base = some p → fs.pexists p = true) ∧
    resolve_markdown_link fsRel "../main" ["r", "sub", "third.md"] ["r"] =
      some ["r", "main.md"] := by
  refine ⟨?_, ?_, ?_, ?_, by decide⟩
  · intro fs link cur base base2 h
    simp [resolve_markdown_link, h]
  · intro fs link cur base h
    simp [resolve_markdown_link, h]
  · intro fs link cur base h
    simp [resolve_markdown_link, h]
  · intro fs link cur base p h
    simp only [resolve_markdown_link] at h
    repeat' split at h
    all_goals simp_all

/-- Witness for C5 at the specification's relative-link example. -/
theorem claim_C5_witness :
    resolve_markdown_link fsRel "../main" ["r", "sub", "third.md"] ["r"] =
        resolve_markdown_link fsRel "../main" ["r", "sub", "third.md"] ["zzz"] ∧
      fsRel.pexists ["r", "main.md"] = true :=
  ⟨claim_C5.1 fsRel "../main" ["r", "sub", "third.md"] ["r"] ["zzz"] (by decide),
    claim_C5.2.2.2.1 fsRel "../main" ["r", "sub", "third.md"] ["r"] ["r", "main.md"]
      claim_C5.2.2.2.2⟩

/-! ## C6: anchor-only references -/

/-- C6 counterexample: an anchor-only reference is extracted as the empty
string, but an empty target is not intrinsically unresolvable: it goes
through the ordinary resolution path, whose candidate is the containing
directory's name with the markdown extension, located in the grandparent.
In the vault `v` with `sub/a.md` containing only an anchor link and a file
`sub.md` at the root, the empty target resolves to `sub.md` and the
traversal captures that document, refuting "it resolves to not-found and
contributes no captured document". -/
theorem claim_C6_counterexample :
    extract_list "[[#sec]]" = [""] ∧
      resolve_markdown_link fsAnchor "" ["v", "sub", "a.md"] ["v"] = some ["v", "sub.md"] ∧
      traverse_markdown_files fsAnchor ⟨"sub/a", "o", 2, some ["v"]⟩ [] 0 =
        Except.ok ([⟨["v", "sub", "a.md"], "[[#sec]]"⟩, ⟨["v", "sub.md"], "x"⟩],
          [["v", "sub.md"], ["v", "sub", "a.md"]]) := by decide

/-- C6 (amended): an anchor-only reference is extracted as the empty-string
target; an empty target is resolved like any other reference — the
candidate is the containing document's directory (or the base folder when
that directory does not exist), with the markdown extension forced onto its
name — and it contributes no captured document when that candidate does
not exist on disk. -/
theorem claim_C6 :
    (∀ (fs : FS) (cur base : FsPath),
        resolve_markdown_link fs "" cur base =
          (let c := if fs.pexists (parent cur) then parent cur else base
           let cand := parent c ++ [ensure_md_extension (pname c)]
           if fs.pexists cand then some cand else none)) ∧
    extract_list "[[#section]]" = [""] ∧
    traverse_markdown_files fsAnchorNone ⟨"sub/a", "o", 2, some ["v"]⟩ [] 0 =
      Except.ok ([⟨["v", "sub", "a.md"], "[[#sec]]"⟩], [["v", "sub", "a.md"]]) := by
  refine ⟨?_, by decide, by decide⟩
  intro fs cur base
  have h0 : pathOfString "" = [] := by decide
  have h1 : "../".data.isPrefixOf ("" : String).data = false := by decide
  simp [resolve_markdown_link, h1, pjoin, h0]

/-! ## C7: request immutability -/

/-- C7 counterexample: the markdown dump assigns the start file's parent
directory to the request's own base-folder field when none was supplied
(the model returns the request as it stands after the call), so the
pipeline does mutate the request it received. -/
theorem claim_C7_counterexample :
    (dump_markdown_files fsDflt ⟨"v/a", "o", 2, none⟩).map Prod.fst =
        Except.ok ⟨"v/a", "o", 2, some ["v"]⟩ ∧
      (⟨"v/a", "o", 2, some ["v"]⟩ : ObsidianTraversalInput) ≠ ⟨"v/a", "o", 2, none⟩ := by
  decide

/-- C7 (amended): a request whose base folder is present is left unchanged
by the dump; after any successful dump the request equals the received one
with at most the base-folder field assigned (the start file's parent
directory when it was absent); and every child invocation derives a new
request with the same output target and depth bound, the resolved base
folder, and the nested start reference. -/
theorem claim_C7 :
    (∀ input : ObsidianTraversalInput,
        input.base_folder.isSome = true → dump_effective input = input) ∧
    (∀ (fs : FS) (input : ObsidianTraversalInput) (out : ObsidianTraversalInput × String),
        dump_markdown_files fs input = Except.ok out → out.1 = dump_effective input) ∧
    (∀ (input : ObsidianTraversalInput) (base : FsPath) (ns : String),
        (derive_nested_input input base ns).output_file = input.output_file ∧
        (derive_nested_input input base ns).max_depth = input.max_depth ∧
        (derive_nested_input input base ns).base_folder = some base ∧
        (derive_nested_input input base ns).start_file = ns) := by
  refine ⟨?_, ?_, fun input base ns => ⟨rfl, rfl, rfl, rfl⟩⟩
  · intro input h
    cases hb : input.base_folder with
    | none => rw [hb] at h; simp at h
    | some b => simp [dump_effective, hb]
  · intro fs input out h
    simp only [dump_markdown_files] at h
    split at h
    · exact absurd h (by simp)
    · cases hw : write_blocks (effBase fs (dump_effective input)) _ with
      | error e => rw [hw] at h; exact absurd h (by simp [Except.map])
      | ok s =>
        rw [hw] at h
        simp only [Except.map] at h
        cases h
        rfl

/-- Witness for C7: a request with a base folder passes through unchanged,
and a concrete successful dump returns the defaulted request. -/
theorem claim_C7_witness :
    dump_effective ⟨"a", "o", 2, some ["v"]⟩ = ⟨"a", "o", 2, some ["v"]⟩ ∧
      (⟨"v/a", "o", 2, some ["v"]⟩, "--- Start of v/a.md ---\nx\n--- End of v/a.md ---\n\n").1 =
        dump_effective ⟨"v/a", "o", 2, none⟩ :=
  ⟨claim_C7.1 ⟨"a", "o", 2, some ["v"]⟩ (by decide),
    claim_C7.2.1 fsDflt ⟨"v/a", "o", 2, none⟩
      (⟨"v/a", "o", 2, some ["v"]⟩, "--- Start of v/a.md ---\nx\n--- End of v/a.md ---\n\n")
      (by decide)⟩

/-! ## C3: failure semantics -/

/-- C3 counterexample: a link-graph dump can also raise when the start
document exists.  In the vault with `a.md` linking to `b` and a directory
named `b.md`, the discovered link resolves (the directory exists), the
child invocation finds no regular file there, and the whole dump aborts
with the document-not-found error, refuting "precisely when the start
document does not exist" and "never aborts the traversal". -/
theorem claim_C3_counterexample :
    fsDirMd.isFile (startLoc fsDirMd (dump_effective ⟨"a", "o", 2, some ["v"]⟩)) = true ∧
      dump_markdown_files fsDirMd ⟨"a", "o", 2, some ["v"]⟩ =
        Except.error "File not found: v/b.md" := by decide

/-- C3 (amended): a missing start document always raises the
document-not-found error (the model produces no output on an error); a
discovered link on which the resolver fails is skipped silently and the
loop simply continues with the remaining links; but a discovered link that
resolves to an existing path that is not a regular file (or that lies
outside the base folder) aborts the traversal.  The concrete broken-link
dump shows an unresolvable link contributing nothing while the dump
succeeds. -/
theorem claim_C3 :
    (∀ (fs : FS) (input : ObsidianTraversalInput),
        fs.isFile (startLoc fs (dump_effective input)) = false →
        dump_markdown_files fs input =
          Except.error ("File not found: " ++ joinPath (startLoc fs (dump_effective input)))) ∧
    (∀ (fs : FS) (input : ObsidianTraversalInput) (cf bf : FsPath)
        (rec : ObsidianTraversalInput → List FsPath →
          Except String (List FileContent × List FsPath))
        (link : String) (rest : List String) (res : List FileContent) (vis : List FsPath),
        resolve_markdown_link fs link cf bf = none →
        traverseLinksF fs input cf bf rec (link :: rest) res vis =
          traverseLinksF fs input cf bf rec rest res vis) ∧
    dump_markdown_files fsBroken ⟨"a", "o", 2, some ["v"]⟩ =
      Except.ok (⟨"a", "o", 2, some ["v"]⟩,
        fileBlock "a.md" "[[missing]] [[b]]" ++ fileBlock "b.md" "y") := by
  refine ⟨?_, ?_, by decide⟩
  · intro fs input h
    simp [dump_markdown_files, traverse_markdown_files, traverseF, h]
  · intro fs input cf bf rec link rest res vis h
    simp [traverseLinksF, h]

/-- Witness for C3: a missing start reference makes the concrete dump
fail, and a concretely unresolvable link is dropped by the loop. -/
theorem claim_C3_witness :
    dump_markdown_files fsCycle ⟨"zzz", "o", 2, some ["v"]⟩ =
        Except.error ("File not found: " ++
          joinPath (startLoc fsCycle (dump_effective ⟨"zzz", "o", 2, some ["v"]⟩))) ∧
      traverseLinksF fsBroken ⟨"a", "o", 2, some ["v"]⟩ ["v", "a.md"] ["v"]
          (fun _ vis => Except.ok ([], vis)) ["missing", "b"] [] [["v", "a.md"]] =
        traverseLinksF fsBroken ⟨"a", "o", 2, some ["v"]⟩ ["v", "a.md"] ["v"]
          (fun _ vis => Except.ok ([], vis)) ["b"] [] [["v", "a.md"]] :=
  ⟨claim_C3.1 fsCycle ⟨"zzz", "o", 2, some ["v"]⟩ (by decide),
    claim_C3.2.1 fsBroken ⟨"a", "o", 2, some ["v"]⟩ ["v", "a.md"] ["v"]
      (fun _ vis => Except.ok ([], vis)) "missing" ["b"] [] [["v", "a.md"]] (by decide)⟩

/-! ## C8: directory dump filtering -/

/-- C8: every document captured by the folder walk lies below the walk's
root and its root-relative path is not matched by the rule set (for any
matcher, which the specification treats as a black box); on the concrete
repositories, the dump artifact contains the captured block of `main.py`
and contains no occurrence of `x.pyc` under a compiled-artifact ignore
rule, and no occurrence of the version-control metadata directory's name
even with no ignore file present. -/
theorem claim_C8 :
    (∀ (fs : FS) (folder : FsPath) (matcher : String → Bool) (fc : FileContent),
        fc ∈ traverse_folder fs folder matcher →
        folder.isPrefixOf fc.file_path = true ∧
          matcher (joinPath (fc.file_path.drop folder.length)) = false) ∧
    (dump_files_to_text fsPyc ⟨["r"], "o"⟩).map
        (fun out => (containsSub (fileBlock "main.py" "print(1)") out, containsSub "x.pyc" out)) =
      Except.ok (true, false) ∧
    (dump_files_to_text fsGit ⟨["r"], "o"⟩).map
        (fun out => (containsSub (fileBlock "main.py" "print(1)") out, containsSub ".git" out)) =
      Except.ok (true, false) := by
  refine ⟨?_, by decide, by decide⟩
  intro fs folder matcher fc hfc
  simp only [traverse_folder, List.mem_filterMap] at hfc
  obtain ⟨e, _, hif⟩ := hfc
  split at hif
  · split at hif
    · exact absurd hif (by simp)
    · cases hif
      refine ⟨by simp_all, by simp_all⟩
  · exact absurd hif (by simp)

/-- Witness for C8 at a concrete captured document of the compiled-artifact
repository. -/
theorem claim_C8_witness :
    (["r"] : FsPath).isPrefixOf ["r", "main.py"] = true ∧
      gitwild_match (load_gitignore fsPyc ["r"])
        (joinPath ((["r", "main.py"] : FsPath).drop (["r"] : FsPath).length)) = false :=
  claim_C8.1 fsPyc ["r"] (gitwild_match (load_gitignore fsPyc ["r"]))
    ⟨["r", "main.py"], "print(1)"⟩ (by decide)

/-! ## C9: round-trip of captured content -/

theorem write_blocks_has_block (base : FsPath) :
    ∀ (files : List FileContent) (out : String), write_blocks base files = Except.ok out →
      ∀ fc ∈ files, ∃ rel, relative_to fc.file_path base = some rel ∧
        (fileBlock (joinPath rel) fc.content).data <:+: out.data := by
  intro files
  induction files with
  | nil => intro out _ fc hfc; exact absurd hfc (by simp)
  | cons fc0 rest ih =>
    intro out h fc hfc
    simp only [write_blocks] at h
    cases hrel : relative_to fc0.file_path base with
    | none => rw [hrel] at h; exact absurd h (by simp)
    | some rel =>
      rw [hrel] at h
      cases hrest : write_blocks base rest with
      | error e => rw [hrest] at h; exact absurd h (by simp [Except.map])
      | ok s =>
        rw [hrest] at h
        simp only [Except.map] at h
        cases h
        rcases List.mem_cons.mp hfc with rfl | hmem
        · exact ⟨rel, hrel, by
            rw [String.data_append]
            exact (List.prefix_append _ _).isInfix⟩
        · obtain ⟨r2, hr2, hinf⟩ := ih s hrest fc hmem
          exact ⟨r2, hr2, by
            rw [String.data_append]
            exact hinf.trans (List.suffix_append _ _).isInfix⟩

/-- C9: in both writers, every captured document's content appears verbatim
in the output artifact between its start and end delimiter lines for its
relative path: the whole delimited block is a contiguous substring of the
artifact. -/
theorem claim_C9 :
    (∀ (base : FsPath) (files : List FileContent) (out : String),
        write_blocks base files = Except.ok out →
        ∀ fc ∈ files, ∃ rel, relative_to fc.file_path base = some rel ∧
          (fileBlock (joinPath rel) fc.content).data <:+: out.data) ∧
    (∀ (fs : FS) (input : FolderTraversalInput) (out : String),
        dump_files_to_text fs input = Except.ok out →
        ∀ fc ∈ traverse_folder fs input.folder_path
            (gitwild_match (load_gitignore fs input.folder_path)),
          ∃ rel, relative_to fc.file_path input.folder_path = some rel ∧
            (fileBlock (joinPath rel) fc.content).data <:+: out.data) ∧
    (∀ (fs : FS) (input : ObsidianTraversalInput) (res : ObsidianTraversalInput × String)
        (files : List FileContent) (vis : List FsPath),
        dump_markdown_files fs input = Except.ok res →
        traverse_markdown_files fs (dump_effective input) [] 0 = Except.ok (files, vis) →
        ∀ fc ∈ files,
          ∃ rel, relative_to fc.file_path (effBase fs (dump_effective input)) = some rel ∧
            (fileBlock (joinPath rel) fc.content).data <:+: res.2.data) := by
  refine ⟨write_blocks_has_block, ?_, ?_⟩
  · intro fs input out h fc hfc
    simp only [dump_files_to_text] at h
    cases hw : write_blocks input.folder_path
        (traverse_folder fs input.folder_path
          (gitwild_match (load_gitignore fs input.folder_path))) with
    | error e => rw [hw] at h; exact absurd h (by simp [Except.map])
    | ok blocks =>
      rw [hw] at h
      simp only [Except.map] at h
      cases h
      obtain ⟨rel, hrel, hinf⟩ := write_blocks_has_block _ _ _ hw fc hfc
      refine ⟨rel, hrel, ?_⟩
      simp only [String.data_append]
      exact hinf.trans ((List.suffix_append _ _).isInfix)
  · intro fs input res files vis h htrav fc hfc
    simp only [dump_markdown_files] at h
    rw [htrav] at h
    dsimp only at h
    cases hw : write_blocks (effBase fs (dump_effective input)) files with
    | error e => rw [hw] at h; exact absurd h (by simp [Except.map])
    | ok blocks =>
      rw [hw] at h
      simp only [Except.map] at h
      cases h
      exact write_blocks_has_block _ _ _ hw fc hfc

/-- Witness for C9 at a concrete one-document write. -/
theorem claim_C9_witness :
    ∃ rel, relative_to ["v", "a.md"] ["v"] = some rel ∧
      (fileBlock (joinPath rel) "x").data <:+:
        ("--- Start of a.md ---\nx\n--- End of a.md ---\n\n" : String).data :=
  claim_C9.1 ["v"] [⟨["v", "a.md"], "x"⟩]
    "--- Start of a.md ---\nx\n--- End of a.md ---\n\n" (by decide)
    ⟨["v", "a.md"], "x"⟩ (by decide)

/-! ## Traversal invariants (towards C1 and C2) -/

theorem FS.readFile_of_isFile {fs : FS} {p : FsPath} (h : fs.isFile p = true) :
    ∃ c, fs.readFile p = some c := by
  unfold FS.isFile at h
  obtain ⟨e, hmem, hp⟩ := List.any_eq_true.mp h
  unfold FS.readFile
  cases hfind : fs.files.find? (fun e => e.1 = normPath p) with
  | none => exact absurd hp (by simpa using List.find?_eq_none.mp hfind e hmem)
  | some e' => exact ⟨e'.2, by simp [hfind]⟩

theorem traverseLinksF_acc (fs : FS) (input : ObsidianTraversalInput) (cf bf : FsPath)
    (rec : ObsidianTraversalInput → List FsPath →
      Except String (List FileContent × List FsPath)) :
    ∀ (links : List String) (res : List FileContent) (vis : List FsPath)
      (res' : List FileContent) (vis' : List FsPath),
      traverseLinksF fs input cf bf rec links res vis = Except.ok (res', vis') →
      ∃ extra, res' = res ++ extra := by
  intro links
  induction links with
  | nil =>
    intro res vis res' vis' h
    simp only [traverseLinksF] at h
    cases h
    exact ⟨[], by simp⟩
  | cons link rest ih =>
    intro res vis res' vis' h
    simp only [traverseLinksF] at h
    cases hrv : resolve_markdown_link fs link cf bf with
    | none => rw [hrv] at h; exact ih _ _ _ _ h
    | some resolved =>
      rw [hrv] at h
      dsimp only at h
      by_cases hv : resolved ∈ vis
      · rw [if_pos hv] at h; exact ih _ _ _ _ h
      · rw [if_neg hv] at h
        cases hrel : relative_to resolved bf with
        | none => rw [hrel] at h; exact absurd h (by simp)
        | some rel =>
          rw [hrel] at h
          dsimp only at h
          cases hrec : rec (derive_nested_input input bf (joinPath rel)) vis with
          | error e => rw [hrec] at h; exact absurd h (by simp)
          | ok p =>
            obtain ⟨nr, v2⟩ := p
            rw [hrec] at h
            dsimp only at h
            obtain ⟨extra, hex⟩ := ih _ _ _ _ h
            exact ⟨nr ++ extra, by simp [hex]⟩

theorem traverseLinksF_visited (fs : FS) (input : ObsidianTraversalInput) (cf bf : FsPath)
    (rec : ObsidianTraversalInput → List FsPath →
      Except String (List FileContent × List FsPath))
    (Hrec : ∀ (inp : ObsidianTraversalInput) (vis : List FsPath)
      (res : List FileContent) (v' : List FsPath),
      rec inp vis = Except.ok (res, v') →
      (∀ p ∈ vis, p ∈ v') ∧ (∀ fc ∈ res, fc.file_path ∈ v' ∧ fc.file_path ∉ vis) ∧
        (res.map (fun fc => fc.file_path)).Nodup) :
    ∀ (links : List String) (res : List FileContent) (vis : List FsPath)
      (res' : List FileContent) (vis' : List FsPath),
      traverseLinksF fs input cf bf rec links res vis = Except.ok (res', vis') →
      (∀ fc ∈ res, fc.file_path ∈ vis) →
      (res.map (fun fc => fc.file_path)).Nodup →
      (∀ p ∈ vis, p ∈ vis') ∧ (∀ fc ∈ res', fc.file_path ∈ vis') ∧
        (res'.map (fun fc => fc.file_path)).Nodup ∧
        (∀ fc ∈ res', fc ∈ res ∨ fc.file_path ∉ vis) := by
  intro links
  induction links with
  | nil =>
    intro res vis res' vis' h hres hnd
    simp only [traverseLinksF] at h
    cases h
    exact ⟨fun p hp => hp, hres, hnd, fun fc hfc => Or.inl hfc⟩
  | cons link rest ih =>
    intro res vis res' vis' h hres hnd
    simp only [traverseLinksF] at h
    cases hrv : resolve_markdown_link fs link cf bf with
    | none => rw [hrv] at h; exact ih _ _ _ _ h hres hnd
    | some resolved =>
      rw [hrv] at h
      dsimp only at h
      by_cases hv : resolved ∈ vis
      · rw [if_pos hv] at h; exact ih _ _ _ _ h hres hnd
      · rw [if_neg hv] at h
        cases hrel : relative_to resolved bf with
        | none => rw [hrel] at h; exact absurd h (by simp)
        | some rel =>
          rw [hrel] at h
          dsimp only at h
          cases hrec : rec (derive_nested_input input bf (joinPath rel)) vis with
          | error e => rw [hrec] at h; exact absurd h (by simp)
          | ok p =>
            obtain ⟨nr, v2⟩ := p
            rw [hrec] at h
            dsimp only at h
            obtain ⟨hmono, hnew, hnrnd⟩ := Hrec _ _ _ _ hrec
            have hres1 : ∀ fc ∈ res ++ nr, fc.file_path ∈ v2 := by
              intro fc hfc
              rcases List.mem_append.mp hfc with hfc | hfc
              · exact hmono _ (hres fc hfc)
              · exact (hnew fc hfc).1
            have hnd1 : ((res ++ nr).map (fun fc => fc.file_path)).Nodup := by
              rw [List.map_append]
              refine List.Nodup.append hnd hnrnd ?_
              intro a ha hb
              simp only [List.mem_map] at ha hb
              obtain ⟨f1, hf1, rfl⟩ := ha
              obtain ⟨f2, hf2, heq⟩ := hb
              exact (hnew f2 hf2).2 (heq ▸ hres f1 hf1)
            obtain ⟨m1, m2, m3, m4⟩ := ih _ _ _ _ h hres1 hnd1
            refine ⟨fun p hp => m1 p (hmono p hp), m2, m3, ?_⟩
            intro fc hfc
            rcases m4 fc hfc with hin | hnot
            · rcases List.mem_append.mp hin with h1 | h2
              · exact Or.inl h1
              · exact Or.inr (hnew fc h2).2
            · exact Or.inr (fun hmem => hnot (hmono _ hmem))

theorem traverseF_visited (fs : FS) :
    ∀ (fuel : Nat) (input : ObsidianTraversalInput) (vis : List FsPath) (cd : Nat)
      (res : List FileContent) (vis' : List FsPath),
      traverseF fs fuel input vis cd = Except.ok (res, vis') →
      (∀ p ∈ vis, p ∈ vis') ∧ (∀ fc ∈ res, fc.file_path ∈ vis' ∧ fc.file_path ∉ vis) ∧
        (res.map (fun fc => fc.file_path)).Nodup := by
  intro fuel
  induction fuel with
  | zero =>
    intro input vis cd res vis' h
    simp only [traverseF] at h
    cases h
    exact ⟨fun p hp => hp, by simp, by simp⟩
  | succ fuel ih =>
    intro input vis cd res vis' h
    simp only [traverseF] at h
    by_cases h1 : fs.isFile (startLoc fs input) = false
    · rw [if_pos h1] at h; exact absurd h (by simp)
    · rw [if_neg h1] at h
      by_cases h2 : startLoc fs input ∈ vis
      · rw [if_pos h2] at h
        cases h
        exact ⟨fun p hp => hp, by simp, by simp⟩
      · rw [if_neg h2] at h
        cases hrf : fs.readFile (startLoc fs input) with
        | none =>
          rw [hrf] at h
          dsimp only at h
          cases h
          exact ⟨fun p hp => List.mem_cons_of_mem _ hp, by simp, by simp⟩
        | some content =>
          rw [hrf] at h
          dsimp only at h
          by_cases h3 : input.max_depth ≤ cd
          · rw [if_pos h3] at h
            cases h
            refine ⟨fun p hp => List.mem_cons_of_mem _ hp, ?_, by simp⟩
            intro fc hfc
            simp only [List.mem_singleton] at hfc
            subst hfc
            exact ⟨List.mem_cons_self _ _, h2⟩
          · rw [if_neg h3] at h
            obtain ⟨m1, m2, m3, m4⟩ :=
              traverseLinksF_visited fs input (startLoc fs input) (effBase fs input) _
                (fun inp vis2 res2 v2 hr => ih inp vis2 (cd + 1) res2 v2 hr)
                (extract_list content) _ _ _ _ h (by simp) (by simp)
            refine ⟨fun p hp => m1 p (List.mem_cons_of_mem _ hp),
              fun fc hfc => ⟨m2 fc hfc, ?_⟩, m3⟩
            rcases m4 fc hfc with hin | hnot
            · simp only [List.mem_singleton] at hin
              subst hin
              exact h2
            · exact fun hmem => hnot (List.mem_cons_of_mem _ hmem)

theorem traverseLinksF_reach (fs : FS) (input : ObsidianTraversalInput) (cf bf : FsPath)
    (k : Nat)
    (rec : ObsidianTraversalInput → List FsPath →
      Except String (List FileContent × List FsPath))
    (content : String) (hcf : fs.readFile cf = some content)
    (Hrec : ∀ (ns : String) (vis : List FsPath) (res : List FileContent) (v' : List FsPath),
      rec (derive_nested_input input bf ns) vis = Except.ok (res, v') →
      ∀ fc ∈ res, ∃ n, n ≤ k ∧
        ReachN fs bf n (pjoin bf (ensure_md_extension ns)) fc.file_path) :
    ∀ (links : List String) (res : List FileContent) (vis : List FsPath)
      (res' : List FileContent) (vis' : List FsPath),
      (∀ l ∈ links, l ∈ extract_list content) →
      traverseLinksF fs input cf bf rec links res vis = Except.ok (res', vis') →
      (∀ fc ∈ res, ∃ n, n ≤ k + 1 ∧ ReachN fs bf n cf fc.file_path) →
      ∀ fc ∈ res', ∃ n, n ≤ k + 1 ∧ ReachN fs bf n cf fc.file_path := by
  intro links
  induction links with
  | nil =>
    intro res vis res' vis' _ h hres
    simp only [traverseLinksF] at h
    cases h
    exact hres
  | cons link rest ih =>
    intro res vis res' vis' hsub h hres
    simp only [traverseLinksF] at h
    cases hrv : resolve_markdown_link fs link cf bf with
    | none =>
      rw [hrv] at h
      exact ih _ _ _ _ (fun l hl => hsub l (List.mem_cons_of_mem _ hl)) h hres
    | some resolved =>
      rw [hrv] at h
      dsimp only at h
      by_cases hv : resolved ∈ vis
      · rw [if_pos hv] at h
        exact ih _ _ _ _ (fun l hl => hsub l (List.mem_cons_of_mem _ hl)) h hres
      · rw [if_neg hv] at h
        cases hrel : relative_to resolved bf with
        | none => rw [hrel] at h; exact absurd h (by simp)
        | some rel =>
          rw [hrel] at h
          dsimp only at h
          cases hrec : rec (derive_nested_input input bf (joinPath rel)) vis with
          | error e => rw [hrec] at h; exact absurd h (by simp)
          | ok p =>
            obtain ⟨nr, v2⟩ := p
            rw [hrec] at h
            dsimp only at h
            have hpre : bf.isPrefixOf resolved = true ∧ rel = resolved.drop bf.length := by
              simp only [relative_to] at hrel
              split at hrel
              · cases hrel; exact ⟨by assumption, rfl⟩
              · cases hrel
            obtain ⟨hp1, hp2⟩ := hpre
            have hstep : stepT fs bf cf (pjoin bf (ensure_md_extension (joinPath rel))) := by
              subst hp2
              exact ⟨content, hcf, link, hsub link (List.mem_cons_self _ _),
                resolved, hrv, hp1, rfl⟩
            have hres1 : ∀ fc ∈ res ++ nr, ∃ n, n ≤ k + 1 ∧
                ReachN fs bf n cf fc.file_path := by
              intro fc hfc
              rcases List.mem_append.mp hfc with hfc | hfc
              · exact hres fc hfc
              · obtain ⟨n, hn, hr⟩ := Hrec (joinPath rel) vis nr v2 hrec fc hfc
                exact ⟨n + 1, by omega, ReachN.head hstep hr⟩
            exact ih _ _ _ _ (fun l hl => hsub l (List.mem_cons_of_mem _ hl)) h hres1

theorem traverseF_reach (fs : FS) :
    ∀ (fuel : Nat) (input : ObsidianTraversalInput) (vis : List FsPath) (cd : Nat)
      (res : List FileContent) (vis' : List FsPath),
      traverseF fs fuel input vis cd = Except.ok (res, vis') →
      ∀ fc ∈ res, ∃ n, n ≤ input.max_depth - cd ∧
        ReachN fs (effBase fs input) n (startLoc fs input) fc.file_path := by
  intro fuel
  induction fuel with
  | zero =>
    intro input vis cd res vis' h
    simp only [traverseF] at h
    cases h
    simp
  | succ fuel ih =>
    intro input vis cd res vis' h
    simp only [traverseF] at h
    by_cases h1 : fs.isFile (startLoc fs input) = false
    · rw [if_pos h1] at h; exact absurd h (by simp)
    · rw [if_neg h1] at h
      by_cases h2 : startLoc fs input ∈ vis
      · rw [if_pos h2] at h; cases h; simp
      · rw [if_neg h2] at h
        cases hrf : fs.readFile (startLoc fs input) with
        | none =>
          rw [hrf] at h
          dsimp only at h
          cases h
          simp
        | some content =>
          rw [hrf] at h
          dsimp only at h
          by_cases h3 : input.max_depth ≤ cd
          · rw [if_pos h3] at h
            cases h
            intro fc hfc
            simp only [List.mem_singleton] at hfc
            subst hfc
            exact ⟨0, Nat.zero_le _, ReachN.refl _⟩
          · rw [if_neg h3] at h
            have Hrec : ∀ (ns : String) (vis2 : List FsPath) (res2 : List FileContent)
                (v2 : List FsPath),
                traverseF fs fuel (derive_nested_input input (effBase fs input) ns) vis2
                    (cd + 1) = Except.ok (res2, v2) →
                ∀ fc ∈ res2, ∃ n, n ≤ input.max_depth - (cd + 1) ∧
                  ReachN fs (effBase fs input) n
                    (pjoin (effBase fs input) (ensure_md_extension ns)) fc.file_path := by
              intro ns vis2 res2 v2 hr
              exact ih (derive_nested_input input (effBase fs input) ns) vis2 (cd + 1)
                res2 v2 hr
            intro fc hfc
            obtain ⟨n, hn, hr⟩ :=
              traverseLinksF_reach fs input (startLoc fs input) (effBase fs input)
                (input.max_depth - (cd + 1)) _ content hrf Hrec
                (extract_list content) _ _ _ _ (fun l hl => hl) h
                (fun fc2 hfc2 => by
                  simp only [List.mem_singleton] at hfc2
                  subst hfc2
                  exact ⟨0, Nat.zero_le _, ReachN.refl _⟩)
                fc hfc
            exact ⟨n, by omega, hr⟩

/-! ## C1: depth property -/

/-- C1: whenever a traversal started at depth zero succeeds, its result
sequence contains the start document, and every captured document is
reachable from the start location along a chain of at most maxDepth
resolved links (so nothing reachable only via longer link paths is
included; maxDepth is a natural number, and with maxDepth zero the link
loop is never entered, leaving only the start document, which is reachable
in zero steps). -/
theorem claim_C1 (fs : FS) (input : ObsidianTraversalInput)
    (res : List FileContent) (vis : List FsPath)
    (h : traverse_markdown_files fs input [] 0 = Except.ok (res, vis)) :
    (∃ c, fs.readFile (startLoc fs input) = some c ∧
        FileContent.mk (startLoc fs input) c ∈ res) ∧
      ∀ fc ∈ res, ∃ n, n ≤ input.max_depth ∧
        ReachN fs (effBase fs input) n (startLoc fs input) fc.file_path := by
  constructor
  · have h' := h
    simp only [traverse_markdown_files, Nat.sub_zero] at h'
    simp only [traverseF] at h'
    by_cases h1 : fs.isFile (startLoc fs input) = false
    · rw [if_pos h1] at h'; exact absurd h' (by simp)
    · rw [if_neg h1] at h'
      rw [if_neg (List.not_mem_nil _)] at h'
      have hisf : fs.isFile (startLoc fs input) = true := by
        cases hb : fs.isFile (startLoc fs input)
        · exact absurd hb h1
        · rfl
      obtain ⟨c, hc⟩ := FS.readFile_of_isFile hisf
      rw [hc] at h'
      dsimp only at h'
      by_cases h3 : input.max_depth ≤ 0
      · rw [if_pos h3] at h'
        cases h'
        exact ⟨c, hc, by simp⟩
      · rw [if_neg h3] at h'
        obtain ⟨extra, hex⟩ := traverseLinksF_acc fs input (startLoc fs input)
          (effBase fs input) _ (extract_list c) _ _ _ _ h'
        exact ⟨c, hc, by simp [hex]⟩
  · intro fc hfc
    have h' : traverseF fs (input.max_depth + 1 - 0) input [] 0 = Except.ok (res, vis) := h
    have := traverseF_reach fs _ input [] 0 res vis h' fc hfc
    simpa using this

/-- Witness for C1: in the cycle vault with depth bound two, the document
`c.md` captured by the concrete traversal is reachable from the start in at
most two resolved-link steps. -/
theorem claim_C1_witness :
    ∃ n, n ≤ (2 : Nat) ∧
      ReachN fsCycle ["v"] n (startLoc fsCycle ⟨"a", "o", 2, some ["v"]⟩) ["v", "c.md"] :=
  (claim_C1 fsCycle ⟨"a", "o", 2, some ["v"]⟩
      [⟨["v", "a.md"], "[[b]]"⟩, ⟨["v", "b.md"], "[[c]]"⟩, ⟨["v", "c.md"], "[[a]]"⟩]
      [["v", "c.md"], ["v", "b.md"], ["v", "a.md"]] (by decide)).2
    ⟨["v", "c.md"], "[[a]]"⟩ (by decide)

/-! ## C2: deduplication and the cycle example -/

/-- The cycle vault's traversal for every depth bound of at least two:
exactly the three documents, in pre-order, each captured once. -/
theorem fsCycle_traverse (d : Nat) (hd : 2 ≤ d) :
    traverse_markdown_files fsCycle ⟨"a", "o", d, some ["v"]⟩ [] 0 =
      Except.ok ([⟨["v", "a.md"], "[[b]]"⟩, ⟨["v", "b.md"], "[[c]]"⟩, ⟨["v", "c.md"], "[[a]]"⟩],
        [["v", "c.md"], ["v", "b.md"], ["v", "a.md"]]) := by
  obtain ⟨e, rfl⟩ : ∃ e, d = e + 2 := ⟨d - 2, by omega⟩
  cases e with
  | zero => decide
  | succ e =>
    have h0 : ¬ (e + 1 + 2 ≤ 0) := by omega
    have h1 : ¬ (e + 1 + 2 ≤ 1) := by omega
    have h2 : ¬ (e + 1 + 2 ≤ 2) := by omega
    have sA : startLoc fsCycle ⟨"a", "o", e + 1 + 2, some ["v"]⟩ = ["v", "a.md"] := rfl
    have sB : startLoc fsCycle ⟨"b.md", "o", e + 1 + 2, some ["v"]⟩ = ["v", "b.md"] := rfl
    have sC : startLoc fsCycle ⟨"c.md", "o", e + 1 + 2, some ["v"]⟩ = ["v", "c.md"] := rfl
    have eA : effBase fsCycle ⟨"a", "o", e + 1 + 2, some ["v"]⟩ = ["v"] := rfl
    have eB : effBase fsCycle ⟨"b.md", "o", e + 1 + 2, some ["v"]⟩ = ["v"] := rfl
    have eC : effBase fsCycle ⟨"c.md", "o", e + 1 + 2, some ["v"]⟩ = ["v"] := rfl
    have fA : fsCycle.isFile ["v", "a.md"] = true := by decide
    have fB : fsCycle.isFile ["v", "b.md"] = true := by decide
    have fC : fsCycle.isFile ["v", "c.md"] = true := by decide
    have gA : fsCycle.readFile ["v", "a.md"] = some "[[b]]" := by decide
    have gB : fsCycle.readFile ["v", "b.md"] = some "[[c]]" := by decide
    have gC : fsCycle.readFile ["v", "c.md"] = some "[[a]]" := by decide
    have xA : extract_list "[[b]]" = ["b"] := by decide
    have xB : extract_list "[[c]]" = ["c"] := by decide
    have xC : extract_list "[[a]]" = ["a"] := by decide
    have rA : resolve_markdown_link fsCycle "b" ["v", "a.md"] ["v"] = some ["v", "b.md"] := by
      decide
    have rB : resolve_markdown_link fsCycle "c" ["v", "b.md"] ["v"] = some ["v", "c.md"] := by
      decide
    have rC : resolve_markdown_link fsCycle "a" ["v", "c.md"] ["v"] = some ["v", "a.md"] := by
      decide
    have tB : relative_to ["v", "b.md"] ["v"] = some ["b.md"] := by decide
    have tC : relative_to ["v", "c.md"] ["v"] = some ["c.md"] := by decide
    have jB : joinPath ["b.md"] = "b.md" := by decide
    have jC : joinPath ["c.md"] = "c.md" := by decide
    simp +decide [traverse_markdown_files, traverseF, traverseLinksF, derive_nested_input,
      h0, h1, h2, sA, sB, sC, eA, eB, eC, fA, fB, fC, gA, gB, gC, xA, xB, xC,
      rA, rB, rC, tB, tC, jB, jC]

/-- C2: within one link-graph traversal started at depth zero, no two
entries of the result sequence carry the same resolved location; and in the
cycle vault (a links b, b links c, c links a), a traversal from a with any
depth bound of at least two captures exactly the documents a, b, c, each
exactly once. -/
theorem claim_C2 :
    (∀ (fs : FS) (input : ObsidianTraversalInput) (res : List FileContent) (vis : List FsPath),
        traverse_markdown_files fs input [] 0 = Except.ok (res, vis) →
        (res.map (fun fc => fc.file_path)).Nodup) ∧
    (∀ d : Nat, 2 ≤ d →
        traverse_markdown_files fsCycle ⟨"a", "o", d, some ["v"]⟩ [] 0 =
          Except.ok
            ([⟨["v", "a.md"], "[[b]]"⟩, ⟨["v", "b.md"], "[[c]]"⟩, ⟨["v", "c.md"], "[[a]]"⟩],
              [["v", "c.md"], ["v", "b.md"], ["v", "a.md"]])) := by
  refine ⟨?_, fsCycle_traverse⟩
  intro fs input res vis h
  exact (traverseF_visited fs _ input [] 0 res vis h).2.2

/-- Witness for C2: the concrete cycle traversal at depth bound three, and
distinctness of the captured locations at depth bound two. -/
theorem claim_C2_witness :
    (([⟨["v", "a.md"], "[[b]]"⟩, ⟨["v", "b.md"], "[[c]]"⟩,
        ⟨["v", "c.md"], "[[a]]"⟩] : List FileContent).map
      (fun fc => fc.file_path)).Nodup ∧
      traverse_markdown_files fsCycle ⟨"a", "o", 3, some ["v"]⟩ [] 0 =
        Except.ok
          ([⟨["v", "a.md"], "[[b]]"⟩, ⟨["v", "b.md"], "[[c]]"⟩, ⟨["v", "c.md"], "[[a]]"⟩],
            [["v", "c.md"], ["v", "b.md"], ["v", "a.md"]]) :=
  ⟨claim_C2.1 fsCycle ⟨"a", "o", 2, some ["v"]⟩
      [⟨["v", "a.md"], "[[b]]"⟩, ⟨["v", "b.md"], "[[c]]"⟩, ⟨["v", "c.md"], "[[a]]"⟩]
      [["v", "c.md"], ["v", "b.md"], ["v", "a.md"]] (by decide),
    claim_C2.2 3 (by decide)⟩

end LlmDump
